import Mathlib

/-!
Verification of the `gcs-manifest` upload tool (`upload/main.go`).

The Go program walks a local file tree, uploads every regular file to a
GCS bucket while hashing it through an `io.TeeReader`, aggregates the
`(relative path, sha256 digest)` pairs over a channel into a map, and
publishes the JSON-encoded map to the bucket, to a local file, and to
standard output.

Strings from the Go code are modelled as `List Char`, byte streams as
`List Nat` (each element a byte value), and file-system paths as lists of
path components together with an absolute/relative flag.  External
effects (GCS writer, local file system) are modelled by explicit
environments recording which operations succeed.
-/

namespace GcsUpload

/-! ### URI parsing (`parseUri`)

`parseUri` strips an optional `gs://` scheme, then performs
`strings.SplitN(uri, "/", 2)`: it splits at the first `/` only, and
errors exactly when the split yields fewer than two parts. -/

/-- The characters of the literal `gs://` scheme that `strings.HasPrefix`
/ `strings.TrimPrefix` test for and strip. -/
def gsScheme : List Char := ['g', 's', ':', '/', '/']

/-- `strings.HasPrefix`: does `p` lead the string `s`? -/
def leadsWith : List Char → List Char → Bool
  | [], _ => true
  | _ :: _, [] => false
  | p :: ps, c :: cs => (p == c) && leadsWith ps cs

/-- The `strings.HasPrefix`/`strings.TrimPrefix` pair at the top of `parseUri`. -/
def dropScheme (u : List Char) : List Char :=
  if leadsWith gsScheme u then u.drop gsScheme.length else u

/-- `strings.SplitN(u, "/", 2)`: at most two parts, split at the first `/`. -/
def splitN2 (u : List Char) : List (List Char) :=
  match u.dropWhile (fun c => c != '/') with
  | [] => [u]
  | _ :: rest => [u.takeWhile (fun c => c != '/'), rest]

/-- The error message `fmt.Errorf("invalid uri: %s", uri)` (with the
scheme already stripped, as in the Go code). -/
def invalidUriMsg (u : List Char) : List Char :=
  "invalid uri: ".toList ++ u

/-- `parseUri` from `upload/main.go`: returns `(bucket, path)` when the
split yields two parts, an error otherwise. -/
def parseUri (uri : List Char) : Except (List Char) (List Char × List Char) :=
  let u := dropScheme uri
  match splitN2 u with
  | [b, p] => Except.ok (b, p)
  | _ => Except.error (invalidUriMsg u)

/-! ### Path model

`filepath.Walk` yields absolute paths (the walk root is `filepath.Abs(*src)`);
`filepath.Rel(absRoot, path)` yields the path's components after the root's.
A path is a list of components plus a flag saying whether it is absolute. -/

/-- A file-system path: `absFlag = true` for absolute paths. -/
structure FPath where
  absFlag : Bool
  comps : List String
deriving DecidableEq, Repr

/-- The relative-path computation in `main`'s walk callback:
`if absRoot == path { relPath = path } else { relPath = filepath.Rel(absRoot, path) }`.
`root` and `p` are absolute component lists with `root` leading `p`. -/
def relKey (root p : List String) : FPath :=
  if p = root then ⟨true, p⟩
  else ⟨false, p.drop root.length⟩

/-- `os.Open(relPath)` in `uploadFile`: a relative operand is resolved
against the process's current working directory `cwd`, an absolute one
is opened as-is. -/
def openedFile (cwd : List String) (p : FPath) : FPath :=
  if p.absFlag then p else ⟨true, cwd ++ p.comps⟩

/-! ### The hashing tee (`io.TeeReader` + `io.Copy`)

`uploadFile` builds `tee := io.TeeReader(f, gcsObj)` and runs
`io.Copy(h, tee)`.  Per chunk, `tee.Read` reads from `f`, writes the
chunk to `gcsObj`, and returns it; `io.Copy` then writes the returned
chunk into the sha256 accumulator `h`. -/

/-- One pass of `io.Copy(h, io.TeeReader(f, gcsObj))` over the file's
successive read chunks, returning `(bytes written to the remote sink,
bytes fed to the digest accumulator)`. -/
def teeCopy : List (List Nat) → List Nat × List Nat
  | [] => ([], [])
  | c :: rest =>
    let r := teeCopy rest
    (c ++ r.1, c ++ r.2)

/-- Observable events of the tee/copy loop, per chunk. -/
inductive TeeEvent where
  /-- `tee.Read` pulls a chunk from the local file. -/
  | readFile (c : List Nat) : TeeEvent
  /-- `TeeReader.Read` writes the chunk to the remote sink `gcsObj`. -/
  | sinkWrite (c : List Nat) : TeeEvent
  /-- `tee.Read` returns the chunk to its caller (`io.Copy`). -/
  | retToCaller (c : List Nat) : TeeEvent
  /-- `io.Copy` writes the returned chunk into the sha256 accumulator. -/
  | digestUpdate (c : List Nat) : TeeEvent
deriving DecidableEq, Repr

/-- Event trace of the tee/copy loop: per chunk, `TeeReader.Read` reads
the chunk, writes it to the sink, returns it, and only then does
`io.Copy` feed it to the digest. -/
def teeTrace : List (List Nat) → List TeeEvent
  | [] => []
  | c :: rest =>
    TeeEvent.readFile c :: TeeEvent.sinkWrite c :: TeeEvent.retToCaller c ::
      TeeEvent.digestUpdate c :: teeTrace rest

/-- Is this event the sink write of some chunk? -/
def isSinkWrite : TeeEvent → Bool
  | TeeEvent.sinkWrite _ => true
  | _ => false

/-- Is this event the digest update of some chunk? -/
def isDigestUpdate : TeeEvent → Bool
  | TeeEvent.digestUpdate _ => true
  | _ => false

/-! ### SHA-256 (`crypto/sha256`, FIPS 180-4)

The digest accumulator `h := sha256.New()` and its `Sum(nil)`: a full
executable model of SHA-256 over byte lists.  32-bit words are `Nat`
values reduced modulo `2^32`. -/

/-- `2^32`, the word modulus. -/
def w32 : Nat := 4294967296

/-- 32-bit addition. -/
def add32 (a b : Nat) : Nat := (a + b) % w32

/-- 32-bit right rotation by `n`. -/
def rotr (n x : Nat) : Nat := (x / 2 ^ n + x % 2 ^ n * 2 ^ (32 - n)) % w32

/-- Logical right shift by `n`. -/
def shr (n x : Nat) : Nat := x / 2 ^ n

/-- The `Ch` function: `(x AND y) XOR ((NOT x) AND z)` on 32-bit words. -/
def ch (x y z : Nat) : Nat := (x &&& y) ^^^ ((x ^^^ 4294967295) &&& z)

/-- The `Maj` function. -/
def maj (x y z : Nat) : Nat := (x &&& y) ^^^ (x &&& z) ^^^ (y &&& z)

/-- Σ₀. -/
def bigSigma0 (x : Nat) : Nat := rotr 2 x ^^^ rotr 13 x ^^^ rotr 22 x

/-- Σ₁. -/
def bigSigma1 (x : Nat) : Nat := rotr 6 x ^^^ rotr 11 x ^^^ rotr 25 x

/-- σ₀. -/
def smallSigma0 (x : Nat) : Nat := rotr 7 x ^^^ rotr 18 x ^^^ shr 3 x

/-- σ₁. -/
def smallSigma1 (x : Nat) : Nat := rotr 17 x ^^^ rotr 19 x ^^^ shr 10 x

/-- The eight 32-bit state words of the hash. -/
structure Hash8 where
  a : Nat
  b : Nat
  c : Nat
  d : Nat
  e : Nat
  f : Nat
  g : Nat
  h : Nat
deriving DecidableEq, Repr

/-- The initial hash value H⁽⁰⁾ (decimal renderings of the FIPS 180-4
words 6a09e667, bb67ae85, 3c6ef372, a54ff53a, 510e527f, 9b05688c,
1f83d9ab, 5be0cd19). -/
def initH : Hash8 :=
  { a := 1779033703, b := 3144134277, c := 1013904242, d := 2773480762,
    e := 1359893119, f := 2600822924, g := 528734635, h := 1541459225 }

/-- The 64 round constants K of FIPS 180-4, in decimal. -/
def kTable : List Nat :=
  [1116352408, 1899447441, 3049323471, 3921009573, 961987163, 1508970993,
   2453635748, 2870763221, 3624381080, 310598401, 607225278, 1426881987,
   1925078388, 2162078206, 2614888103, 3248222580, 3835390401, 4022224774,
   264347078, 604807628, 770255983, 1249150122, 1555081692, 1996064986,
   2554220882, 2821834349, 2952996808, 3210313671, 3336571891, 3584528711,
   113926993, 338241895, 666307205, 773529912, 1294757372, 1396182291,
   1695183700, 1986661051, 2177026350, 2456956037, 2730485921, 2820302411,
   3259730800, 3345764771, 3516065817, 3600352804, 4094571909, 275423344,
   430227734, 506948616, 659060556, 883997877, 958139571, 1322822218,
   1537002063, 1747873779, 1955562222, 2024104815, 2227730452, 2361852424,
   2428436474, 2756734187, 3204031479, 3329325298]

/-- Big-endian 32-bit word from four bytes. -/
def beWord (b0 b1 b2 b3 : Nat) : Nat :=
  b0 % 256 * 16777216 + b1 % 256 * 65536 + b2 % 256 * 256 + b3 % 256

/-- The 16 big-endian words of a 64-byte block. -/
def toWords : List Nat → List Nat
  | b0 :: b1 :: b2 :: b3 :: rest => beWord b0 b1 b2 b3 :: toWords rest
  | _ => []

/-- Iterate a function `n` times. -/
def applyN {α : Type} : Nat → (α → α) → α → α
  | 0, _, x => x
  | n + 1, f, x => applyN n f (f x)

/-- One message-schedule extension step: append
`σ₁(w[t-2]) + w[t-7] + σ₀(w[t-15]) + w[t-16]`. -/
def extendStep (ws : List Nat) : List Nat :=
  let n := ws.length
  ws ++ [add32 (add32 (smallSigma1 (ws.getD (n - 2) 0)) (ws.getD (n - 7) 0))
    (add32 (smallSigma0 (ws.getD (n - 15) 0)) (ws.getD (n - 16) 0))]

/-- One compression round with constant `kt` and schedule word `wt`. -/
def shaRound (kt wt : Nat) (s : Hash8) : Hash8 :=
  let t1 := add32 s.h (add32 (bigSigma1 s.e) (add32 (ch s.e s.f s.g) (add32 kt wt)))
  let t2 := add32 (bigSigma0 s.a) (maj s.a s.b s.c)
  { a := add32 t1 t2, b := s.a, c := s.b, d := s.c,
    e := add32 s.d t1, f := s.e, g := s.f, h := s.g }

/-- Process one 64-byte block into the running hash value. -/
def compressBlock (hv : Hash8) (block : List Nat) : Hash8 :=
  let ws := applyN 48 extendStep (toWords block)
  let s := (kTable.zip ws).foldl (fun st p => shaRound p.1 p.2 st) hv
  { a := add32 hv.a s.a, b := add32 hv.b s.b, c := add32 hv.c s.c,
    d := add32 hv.d s.d, e := add32 hv.e s.e, f := add32 hv.f s.f,
    g := add32 hv.g s.g, h := add32 hv.h s.h }

/-- The 8-byte big-endian encoding of the message bit length. -/
def lenBytes8 (n : Nat) : List Nat :=
  [n / 2 ^ 56 % 256, n / 2 ^ 48 % 256, n / 2 ^ 40 % 256, n / 2 ^ 32 % 256,
   n / 2 ^ 24 % 256, n / 2 ^ 16 % 256, n / 2 ^ 8 % 256, n % 256]

/-- SHA-256 padding: a `0x80` byte, zeros to 56 mod 64, then the bit length. -/
def padMessage (msg : List Nat) : List Nat :=
  let len := msg.length
  let padLen := (64 - (len + 9) % 64) % 64
  msg ++ 128 :: (List.replicate padLen 0 ++ lenBytes8 (len * 8))

/-- Split the padded message into 64-byte blocks. -/
def toBlocks : List Nat → List (List Nat)
  | [] => []
  | b :: rest => (b :: rest).take 64 :: toBlocks ((b :: rest).drop 64)
termination_by l => l.length
decreasing_by simp [List.length_drop]; omega

/-- Big-endian bytes of one 32-bit word. -/
def wordBytes (w : Nat) : List Nat :=
  [w / 2 ^ 24 % 256, w / 2 ^ 16 % 256, w / 2 ^ 8 % 256, w % 256]

/-- `h.Sum(nil)` after writing `msg`: the 32-byte SHA-256 digest. -/
def sha256Sum (msg : List Nat) : List Nat :=
  let fin := (toBlocks (padMessage msg)).foldl compressBlock initH
  wordBytes fin.a ++ wordBytes fin.b ++ wordBytes fin.c ++ wordBytes fin.d ++
    wordBytes fin.e ++ wordBytes fin.f ++ wordBytes fin.g ++ wordBytes fin.h

/-! ### Hex encoding and the digest string (`hex.EncodeToString`) -/

/-- The sixteen lowercase hexadecimal digit characters, in order. -/
def hexChars : List Char := "0123456789abcdef".toList

/-- The hex digit character for a value below 16. -/
def hexDigit (n : Nat) : Char := hexChars.getD n 'x'

/-- `hex.EncodeToString`: two lowercase hex characters per byte,
high nibble first. -/
def hexOfBytes : List Nat → List Char
  | [] => []
  | b :: bs => hexDigit (b / 16) :: hexDigit (b % 16) :: hexOfBytes bs

/-- The characters of the literal `"sha256:"` tag. -/
def sha256Tag : List Char := ['s', 'h', 'a', '2', '5', '6', ':']

/-- The string `uploadFile` returns on success:
`"sha256:" + hex.EncodeToString(h.Sum(nil))`, where `h` accumulated the
digest-side bytes of the tee. -/
def digestString (chunks : List (List Nat)) : List Char :=
  sha256Tag ++ hexOfBytes (sha256Sum (teeCopy chunks).2)

/-! ### The upload task (`uploadFile`)

External effects are abstracted by an environment recording which of the
run's fallible operations succeed.  `bucket.Object(key).NewWriter(ctx)`
itself cannot fail (GCS surfaces errors on `Write`/`Close`); a failing
`Write` surfaces through the tee and `io.Copy`; the deferred
`gcsObj.Close()` is the commit, and its error value is produced but
never inspected by the Go code. -/

/-- Outcome environment for one `uploadFile` call. -/
structure UploadEnv where
  /-- Does `os.Open(relPath)` succeed? -/
  openOk : Bool
  /-- The successive read chunks of the opened file. -/
  chunks : List (List Nat)
  /-- Do all `gcsObj.Write` calls made by the tee succeed? -/
  writeOk : Bool
  /-- Does the deferred `gcsObj.Close()` (the commit) succeed? -/
  commitOk : Bool
deriving DecidableEq, Repr

/-- Error kinds an upload task can hit. -/
inductive UploadErr where
  /-- Local file open/read failure. -/
  | ioError : UploadErr
  /-- Remote stream write failure (surfaced through the tee). -/
  | remoteWrite : UploadErr
  /-- Remote stream close/commit failure. -/
  | remoteCommit : UploadErr
deriving DecidableEq, Repr

/-- The error value produced by the deferred `gcsObj.Close()`. -/
def remoteClose (env : UploadEnv) : Except UploadErr Unit :=
  if env.commitOk then Except.ok () else Except.error UploadErr.remoteCommit

/-- `uploadFile` from `upload/main.go`: open the remote writer, open the
local file (error returned), copy through the tee (write error returned),
return the digest string.  The deferred `gcsObj.Close()` runs on every
exit path but its result is discarded, exactly as in the Go code. -/
def uploadFile (env : UploadEnv) : Except UploadErr (List Char) :=
  let res : Except UploadErr (List Char) :=
    if !env.openOk then Except.error UploadErr.ioError
    else if !env.writeOk then Except.error UploadErr.remoteWrite
    else Except.ok (digestString env.chunks)
  let _ := remoteClose env
  res

/-! ### File tree, walk, and manifest aggregation

The local file system under the resolved root is a tree; `filepath.Walk`
visits the root and every descendant, handing the callback the entry's
path and mode.  The callback skips non-regular entries and dispatches
one upload goroutine per regular file; the goroutines each send one
`uploaded{sha, path}` value on `shaCh`, and the receive loop performs
`mfst[f.path] = f.sha` once per received value. -/

mutual
/-- A node of the local file tree. -/
inductive FsNode where
  /-- A regular file with its byte content. -/
  | file (content : List Nat) : FsNode
  /-- A non-regular entry (directory symlink, device, socket, ...). -/
  | special : FsNode
  /-- A directory with named children. -/
  | dir (children : FsChildren) : FsNode
/-- The named children of a directory. -/
inductive FsChildren where
  | nil : FsChildren
  | cons (name : String) (node : FsNode) (rest : FsChildren) : FsChildren
end

/-- `fi.Mode().IsRegular()` for the modelled node. -/
def isRegularNode : FsNode → Bool
  | FsNode.file _ => true
  | _ => false

mutual
/-- `filepath.Walk` rooted at component path `p`: the root entry itself,
then (for directories) every descendant, with each entry's node.
(`filepath.Walk` visits children in lexical order; order is irrelevant
to every property proved below.) -/
def walkNode (p : List String) : FsNode → List (List String × FsNode)
  | FsNode.file c => [(p, FsNode.file c)]
  | FsNode.special => [(p, FsNode.special)]
  | FsNode.dir cs => (p, FsNode.dir cs) :: walkChildren p cs
/-- Walk each child of a directory at path `p`. -/
def walkChildren (p : List String) : FsChildren → List (List String × FsNode)
  | FsChildren.nil => []
  | FsChildren.cons n node rest => walkNode (p ++ [n]) node ++ walkChildren p rest
end

/-- The names of a directory's children. -/
def namesOf : FsChildren → List String
  | FsChildren.nil => []
  | FsChildren.cons n _ r => n :: namesOf r

mutual
/-- Well-formedness of a file tree: within each directory, child names
are distinct (as on a real file system). -/
def nodeWF : FsNode → Bool
  | FsNode.dir cs => decide (namesOf cs).Nodup && childrenWF cs
  | _ => true
/-- Well-formedness of a children list. -/
def childrenWF : FsChildren → Bool
  | FsChildren.nil => true
  | FsChildren.cons _ node rest => nodeWF node && childrenWF rest
end

mutual
/-- Does the tree contain any regular file? -/
def hasRegular : FsNode → Bool
  | FsNode.file _ => true
  | FsNode.special => false
  | FsNode.dir cs => childrenHaveRegular cs
/-- Does any child subtree contain a regular file? -/
def childrenHaveRegular : FsChildren → Bool
  | FsChildren.nil => false
  | FsChildren.cons _ node rest => hasRegular node || childrenHaveRegular rest
end

/-- The walked paths of the regular files under root `R`: what the walk
callback dispatches upload tasks for. -/
def regularPaths (R : List String) (t : FsNode) : List (List String) :=
  ((walkNode R t).filter (fun e => isRegularNode e.2)).map Prod.fst

/-- The `uploaded{sha, path}` values the dispatched goroutines send on
`shaCh`, one per regular file, in walk order; `dig` gives the digest
string each task computes.  (The channel delivers them in an arbitrary
interleaving — the theorems quantify over every permutation.) -/
def uploadResults (R : List String) (t : FsNode) (dig : List String → List Char) :
    List (FPath × List Char) :=
  (regularPaths R t).map (fun p => (relKey R p, dig p))

/-- The manifest: Go's `map[string]string`, as an association list. -/
abbrev Manifest := List (FPath × List Char)

/-- The keys of a manifest. -/
def mfstKeys (m : Manifest) : List FPath := m.map Prod.fst

/-- Go map assignment `m[k] = v`: overwrite the binding if the key is
present, append it otherwise. -/
def mapInsert (m : Manifest) (k : FPath) (v : List Char) : Manifest :=
  if m.any (fun e => decide (e.1 = k)) then
    m.map (fun e => if e.1 = k then (k, v) else e)
  else m ++ [(k, v)]

/-- The receive loop `for f := range shaCh { mfst[f.path] = f.sha }`,
over the values in the order the channel delivered them. -/
def buildMfst (results : List (FPath × List Char)) : Manifest :=
  results.foldl (fun m r => mapInsert m r.1 r.2) []

/-- The manifest `main` builds when every upload task succeeds and the
channel delivers the results in walk order. -/
def mainManifest (R : List String) (t : FsNode) (dig : List String → List Char) :
    Manifest :=
  buildMfst (uploadResults R t dig)

/-! ### Serialization and publication (`json.Marshal` + the three sinks)

`json.Marshal` on a `map[string]string` yields
`{"k":"v",...}`.  The model renders keys as slash-joined component
paths; key sorting and string escaping are omitted (no claim below
depends on them). -/

/-- The `"` character. -/
def quoteC : Char := Char.ofNat 34

/-- The opening-brace character. -/
def lbraceC : Char := Char.ofNat 123

/-- The closing-brace character. -/
def rbraceC : Char := Char.ofNat 125

/-- Join component strings with `/` separators. -/
def joinSlash : List (List Char) → List Char
  | [] => []
  | [x] => x
  | x :: y :: rest => x ++ '/' :: joinSlash (y :: rest)

/-- Render a path key as Go renders the path string. -/
def renderKey (k : FPath) : List Char :=
  let joined := joinSlash (k.comps.map String.toList)
  if k.absFlag then '/' :: joined else joined

/-- One `"key":"value"` JSON member. -/
def jsonEntry (e : FPath × List Char) : List Char :=
  quoteC :: (renderKey e.1 ++ [quoteC, ':'] ++ quoteC :: (e.2 ++ [quoteC]))

/-- Join rendered members with commas. -/
def commaJoin : List (List Char) → List Char
  | [] => []
  | [x] => x
  | x :: y :: rest => x ++ ',' :: commaJoin (y :: rest)

/-- `json.Marshal(mfst)`: the serialized manifest bytes. -/
def serializeManifest (m : Manifest) : List Char :=
  lbraceC :: (commaJoin (m.map jsonEntry) ++ [rbraceC])

/-- The three destinations of the serialized manifest. -/
inductive Sink where
  /-- The remote object `<gcsPath>/manifest.json`. -/
  | remote : Sink
  /-- The local file `<manifestPath>/manifest.json`. -/
  | localFile : Sink
  /-- Standard output (`fmt.Print`). -/
  | stdout : Sink
deriving DecidableEq, Repr

/-- Outcome environment for the publication phase of `main`. -/
structure PublishEnv where
  /-- Does `mfstObj.Write(m)` succeed? -/
  remoteWriteOk : Bool
  /-- Does the deferred `mfstObj.Close()` (the commit) succeed? -/
  remoteCommitOk : Bool
  /-- Does `ioutil.WriteFile` for the local manifest succeed? -/
  localWriteOk : Bool
deriving DecidableEq, Repr

/-- Error kinds of the publication phase. -/
inductive PubErr where
  | remoteWrite : PubErr
  | localWrite : PubErr
  | remoteCommit : PubErr
deriving DecidableEq, Repr

/-- The error value produced by the deferred `mfstObj.Close()`. -/
def mfstRemoteClose (env : PublishEnv) : Except PubErr Unit :=
  if env.remoteCommitOk then Except.ok () else Except.error PubErr.remoteCommit

/-- The tail of `main`: marshal the manifest, write it to the remote
manifest object (error fatal), write the local copy (error fatal), print
it.  On success every sink received the same serialized bytes.  The
deferred `mfstObj.Close()` result is discarded, exactly as in the Go
code. -/
def publishManifest (mfst : Manifest) (env : PublishEnv) :
    Except PubErr (List (Sink × List Char)) :=
  let m := serializeManifest mfst
  let res : Except PubErr (List (Sink × List Char)) :=
    if !env.remoteWriteOk then Except.error PubErr.remoteWrite
    else if !env.localWriteOk then Except.error PubErr.localWrite
    else Except.ok [(Sink.remote, m), (Sink.localFile, m), (Sink.stdout, m)]
  let _ := mfstRemoteClose env
  res

/-! ### The walk callback (`main`'s closure passed to `filepath.Walk`)

`filepath.Walk` invokes the callback with `(path, info, err)`; when an
entry cannot be read it passes a nil `FileInfo` and a non-nil error.
The Go callback never reads its `err` parameter (the variable is only
reassigned later) and immediately calls `fi.Mode()`. -/

/-- The `os.FileInfo` handed to the callback, `none` modelling Go `nil`. -/
structure FileInfo where
  /-- `fi.Mode().IsRegular()`. -/
  regular : Bool
deriving DecidableEq, Repr

/-- What a callback invocation does. -/
inductive CallbackResult where
  /-- Non-regular entry: `return nil` without dispatching. -/
  | skip : CallbackResult
  /-- Regular entry: dispatch an upload goroutine for this relative path. -/
  | dispatch (relPath : FPath) : CallbackResult
deriving DecidableEq, Repr

/-- The walk callback.  The outer `Option` is `none` when the body
faults (nil-pointer dereference of `fi.Mode()`); otherwise it holds the
callback's returned value.  `err` is the incoming traversal error, which
the body never consults. -/
def walkCallback (absRoot : List String) (path : List String)
    (fi : Option FileInfo) (err : Option (List Char)) :
    Option (Except (List Char) CallbackResult) :=
  match fi with
  | none => none
  | some info =>
    if !info.regular then some (Except.ok CallbackResult.skip)
    else some (Except.ok (CallbackResult.dispatch (relKey absRoot path)))

/-! ### Concrete sample inputs used by witness theorems -/

/-- A small well-formed tree: two regular files (one nested), one
non-regular entry. -/
def sampleTree : FsNode :=
  FsNode.dir (FsChildren.cons "a" (FsNode.file [1])
    (FsChildren.cons "b"
      (FsNode.dir (FsChildren.cons "c" (FsNode.file [2]) FsChildren.nil))
      (FsChildren.cons "s" FsNode.special FsChildren.nil)))

/-- A fixed digest assignment for sample runs. -/
def sampleDig : List String → List Char := fun _ => []

/-- The sample results received in reverse dispatch order, modelling an
arbitrary interleaving of the concurrently finishing upload tasks. -/
def sampleRecv : List (FPath × List Char) :=
  (uploadResults ["r"] sampleTree sampleDig).reverse

/-- A directory tree with zero regular files that is not literally
empty: a subdirectory holding a special entry, plus a special entry. -/
def sampleNoRegular : FsChildren :=
  FsChildren.cons "d" (FsNode.dir (FsChildren.cons "s" FsNode.special FsChildren.nil))
    (FsChildren.cons "x" FsNode.special FsChildren.nil)

/-! ## Helper lemmas -/

theorem splitN2_no_slash (u : List Char) (h : '/' ∉ u) : splitN2 u = [u] := by
  unfold splitN2
  have hd : u.dropWhile (fun c => c != '/') = [] := by
    rw [List.dropWhile_eq_nil_iff]
    intro x hx
    simp only [bne_iff_ne, ne_eq]
    exact fun hxe => h (hxe ▸ hx)
  rw [hd]

theorem splitN2_with_slash (u : List Char) (h : '/' ∈ u) :
    ∃ a b, splitN2 u = [a, b] := by
  unfold splitN2
  cases hd : u.dropWhile (fun c => c != '/') with
  | nil =>
    exfalso
    have := List.dropWhile_eq_nil_iff.mp hd '/' h
    simp at this
  | cons a rest => exact ⟨_, _, rfl⟩

theorem teeCopy_eq_join (l : List (List Nat)) :
    (teeCopy l).1 = l.flatten ∧ (teeCopy l).2 = l.flatten := by
  induction l with
  | nil => exact ⟨rfl, rfl⟩
  | cons c rest ih => simp [teeCopy, ih.1, ih.2]

theorem sha256Sum_length (msg : List Nat) : (sha256Sum msg).length = 32 := by
  simp [sha256Sum, wordBytes]

theorem wordBytes_lt (w : Nat) : ∀ b ∈ wordBytes w, b < 256 := by
  intro b hb
  simp [wordBytes] at hb
  rcases hb with rfl | rfl | rfl | rfl <;> omega

theorem sha256Sum_bytes_lt (msg : List Nat) : ∀ b ∈ sha256Sum msg, b < 256 := by
  intro b hb
  simp only [sha256Sum, List.mem_append] at hb
  rcases hb with ((((((h | h) | h) | h) | h) | h) | h) | h <;>
    exact wordBytes_lt _ _ h

theorem hexOfBytes_length (bs : List Nat) : (hexOfBytes bs).length = 2 * bs.length := by
  induction bs with
  | nil => rfl
  | cons b rest ih => simp [hexOfBytes, ih]; omega

theorem hexDigit_mem (n : Nat) (h : n < 16) : hexDigit n ∈ hexChars := by
  have hall : ∀ m < 16, hexDigit m ∈ hexChars := by decide
  exact hall n h

theorem hexOfBytes_mem (bs : List Nat) (h : ∀ b ∈ bs, b < 256) :
    ∀ c ∈ hexOfBytes bs, c ∈ hexChars := by
  induction bs with
  | nil => intro c hc; simp [hexOfBytes] at hc
  | cons b rest ih =>
    intro c hc
    have hb : b < 256 := h b (by simp)
    simp only [hexOfBytes, List.mem_cons] at hc
    rcases hc with rfl | rfl | hc
    · exact hexDigit_mem _ (by omega)
    · exact hexDigit_mem _ (by omega)
    · exact ih (fun x hx => h x (by simp [hx])) c hc

mutual
theorem walkNode_path_shape : ∀ (t : FsNode) (p : List String)
    (e : List String × FsNode), e ∈ walkNode p t → ∃ s, e.1 = p ++ s
  | FsNode.file c, p, e, he => by
    simp only [walkNode, List.mem_singleton] at he
    exact ⟨[], by simp [he]⟩
  | FsNode.special, p, e, he => by
    simp only [walkNode, List.mem_singleton] at he
    exact ⟨[], by simp [he]⟩
  | FsNode.dir cs, p, e, he => by
    simp only [walkNode, List.mem_cons] at he
    rcases he with h | h
    · exact ⟨[], by simp [h]⟩
    · obtain ⟨n, s, _, hs⟩ := walkChildren_path_shape cs p e h
      exact ⟨n :: s, hs⟩
theorem walkChildren_path_shape : ∀ (cs : FsChildren) (p : List String)
    (e : List String × FsNode), e ∈ walkChildren p cs →
    ∃ n s, n ∈ namesOf cs ∧ e.1 = p ++ n :: s
  | FsChildren.nil, p, e, he => by simp [walkChildren] at he
  | FsChildren.cons n node rest, p, e, he => by
    simp only [walkChildren, List.mem_append] at he
    rcases he with h | h
    · obtain ⟨s, hs⟩ := walkNode_path_shape node (p ++ [n]) e h
      exact ⟨n, s, by simp [namesOf], by simp [hs]⟩
    · obtain ⟨m, s, hm, hs⟩ := walkChildren_path_shape rest p e h
      exact ⟨m, s, by simp [namesOf, hm], hs⟩
end

mutual
theorem walkNode_paths_nodup : ∀ (t : FsNode) (p : List String),
    nodeWF t = true → ((walkNode p t).map Prod.fst).Nodup
  | FsNode.file c, p, _ => by simp [walkNode]
  | FsNode.special, p, _ => by simp [walkNode]
  | FsNode.dir cs, p, hwf => by
    have hparts : (namesOf cs).Nodup ∧ childrenWF cs = true := by
      simpa [nodeWF] using hwf
    have hkids := walkChildren_paths_nodup cs p hparts.2 hparts.1
    simp only [walkNode, List.map_cons, List.nodup_cons]
    refine ⟨?_, hkids⟩
    intro hmem
    obtain ⟨e, he, hfst⟩ := List.mem_map.1 hmem
    obtain ⟨n, s, _, hs⟩ := walkChildren_path_shape cs p e he
    rw [hfst] at hs
    have := congrArg List.length hs
    simp at this
theorem walkChildren_paths_nodup : ∀ (cs : FsChildren) (p : List String),
    childrenWF cs = true → (namesOf cs).Nodup →
    ((walkChildren p cs).map Prod.fst).Nodup
  | FsChildren.nil, p, _, _ => by simp [walkChildren]
  | FsChildren.cons n node rest, p, hwf, hn => by
    have hw : nodeWF node = true ∧ childrenWF rest = true := by
      simpa [childrenWF, Bool.and_eq_true] using hwf
    have hn' : n ∉ namesOf rest ∧ (namesOf rest).Nodup := by
      simpa [namesOf, List.nodup_cons] using hn
    have hA := walkNode_paths_nodup node (p ++ [n]) hw.1
    have hB := walkChildren_paths_nodup rest p hw.2 hn'.2
    simp only [walkChildren, List.map_append]
    refine List.Nodup.append hA hB ?_
    intro q hqA hqB
    obtain ⟨e1, he1, hf1⟩ := List.mem_map.1 hqA
    obtain ⟨e2, he2, hf2⟩ := List.mem_map.1 hqB
    obtain ⟨s, hs⟩ := walkNode_path_shape node (p ++ [n]) e1 he1
    obtain ⟨m, s', hm, hs'⟩ := walkChildren_path_shape rest p e2 he2
    rw [hf1] at hs
    rw [hf2] at hs'
    have hs2 : q = p ++ n :: s := by simpa [List.append_assoc] using hs
    have heq : p ++ n :: s = p ++ m :: s' := hs2.symm.trans hs'
    have hcons := List.append_cancel_left heq
    have hnm : n = m := by injection hcons
    exact hn'.1 (hnm ▸ hm)
end

theorem regularPaths_shape (R : List String) (t : FsNode) :
    ∀ q ∈ regularPaths R t, ∃ s, q = R ++ s := by
  intro q hq
  simp only [regularPaths, List.mem_map, List.mem_filter] at hq
  obtain ⟨e, ⟨he, _⟩, rfl⟩ := hq
  exact walkNode_path_shape t R e he

theorem regularPaths_nodup (R : List String) (t : FsNode) (hwf : nodeWF t = true) :
    (regularPaths R t).Nodup := by
  have h := walkNode_paths_nodup t R hwf
  exact h.sublist (List.Sublist.map Prod.fst (List.filter_sublist _))

theorem append_eq_self_iff (R s : List String) : R ++ s = R ↔ s = [] := by
  constructor
  · intro h
    have hl := congrArg List.length h
    simp only [List.length_append] at hl
    have : s.length = 0 := by omega
    exact List.eq_nil_of_length_eq_zero this
  · rintro rfl; simp

theorem relKey_eq_of_under (R s : List String) :
    relKey R (R ++ s) = if s = [] then ⟨true, R⟩ else ⟨false, s⟩ := by
  unfold relKey
  by_cases h : s = []
  · subst h; simp
  · rw [if_neg (fun hc => h ((append_eq_self_iff R s).1 hc)), if_neg h, List.drop_left]

theorem relKey_inj_under (R s₁ s₂ : List String)
    (h : relKey R (R ++ s₁) = relKey R (R ++ s₂)) : s₁ = s₂ := by
  rw [relKey_eq_of_under, relKey_eq_of_under] at h
  by_cases h1 : s₁ = [] <;> by_cases h2 : s₂ = []
  · rw [h1, h2]
  · rw [if_pos h1, if_neg h2] at h
    exact absurd (congrArg FPath.absFlag h) (by simp)
  · rw [if_neg h1, if_pos h2] at h
    exact absurd (congrArg FPath.absFlag h) (by simp)
  · rw [if_neg h1, if_neg h2] at h
    exact congrArg FPath.comps h

theorem any_key_eq (m : Manifest) (k : FPath) :
    (m.any fun e => decide (e.1 = k)) = true ↔ k ∈ mfstKeys m := by
  simp [mfstKeys, List.any_eq_true, List.mem_map]

theorem mfstKeys_mapInsert_of_mem (m : Manifest) (k : FPath) (v : List Char)
    (h : k ∈ mfstKeys m) : mfstKeys (mapInsert m k v) = mfstKeys m := by
  unfold mapInsert
  rw [if_pos ((any_key_eq m k).2 h)]
  unfold mfstKeys
  rw [List.map_map]
  apply List.map_congr_left
  intro e _
  by_cases hek : e.1 = k
  · simp [Function.comp, hek]
  · simp [Function.comp, hek]

theorem mfstKeys_mapInsert_of_not_mem (m : Manifest) (k : FPath) (v : List Char)
    (h : k ∉ mfstKeys m) : mfstKeys (mapInsert m k v) = mfstKeys m ++ [k] := by
  unfold mapInsert
  rw [if_neg (fun hc => h ((any_key_eq m k).1 hc))]
  simp [mfstKeys]

theorem mem_mfstKeys_mapInsert (m : Manifest) (k : FPath) (v : List Char) (x : FPath) :
    x ∈ mfstKeys (mapInsert m k v) ↔ x ∈ mfstKeys m ∨ x = k := by
  by_cases h : k ∈ mfstKeys m
  · rw [mfstKeys_mapInsert_of_mem m k v h]
    constructor
    · exact Or.inl
    · rintro (h' | rfl)
      · exact h'
      · exact h
  · rw [mfstKeys_mapInsert_of_not_mem m k v h]
    simp

theorem nodup_mfstKeys_mapInsert (m : Manifest) (k : FPath) (v : List Char)
    (h : (mfstKeys m).Nodup) : (mfstKeys (mapInsert m k v)).Nodup := by
  by_cases hk : k ∈ mfstKeys m
  · rw [mfstKeys_mapInsert_of_mem m k v hk]; exact h
  · rw [mfstKeys_mapInsert_of_not_mem m k v hk]
    refine h.append (List.nodup_singleton k) ?_
    intro a ha hb
    simp only [List.mem_singleton] at hb
    subst hb
    exact hk ha

theorem buildMfst_go_keys (results : List (FPath × List Char)) : ∀ (m : Manifest),
    ((mfstKeys m).Nodup →
      (mfstKeys (results.foldl (fun acc r => mapInsert acc r.1 r.2) m)).Nodup) ∧
    (∀ k, k ∈ mfstKeys (results.foldl (fun acc r => mapInsert acc r.1 r.2) m) ↔
      k ∈ mfstKeys m ∨ k ∈ results.map Prod.fst) := by
  induction results with
  | nil => intro m; simp
  | cons r rest ih =>
    intro m
    refine ⟨?_, ?_⟩
    · intro hm
      exact (ih (mapInsert m r.1 r.2)).1 (nodup_mfstKeys_mapInsert _ _ _ hm)
    · intro k
      rw [List.foldl_cons, (ih (mapInsert m r.1 r.2)).2 k, mem_mfstKeys_mapInsert]
      simp only [List.map_cons, List.mem_cons]
      tauto

theorem buildMfst_keys_nodup (results : List (FPath × List Char)) :
    (mfstKeys (buildMfst results)).Nodup :=
  (buildMfst_go_keys results []).1 (by simp [mfstKeys])

theorem mem_buildMfst_keys (results : List (FPath × List Char)) (k : FPath) :
    k ∈ mfstKeys (buildMfst results) ↔ k ∈ results.map Prod.fst := by
  rw [buildMfst, (buildMfst_go_keys results []).2 k]
  simp [mfstKeys]

mutual
theorem regular_walk_empty : ∀ (t : FsNode) (p : List String),
    hasRegular t = false →
    (walkNode p t).filter (fun e => isRegularNode e.2) = []
  | FsNode.file c, p, h => by simp [hasRegular] at h
  | FsNode.special, p, h => by
    simp [walkNode, List.filter_cons, isRegularNode]
  | FsNode.dir cs, p, h => by
    have hc : childrenHaveRegular cs = false := by simpa [hasRegular] using h
    simp only [walkNode, List.filter_cons, isRegularNode, Bool.false_eq_true,
      if_false, cond_false]
    exact children_regular_walk_empty cs p hc
theorem children_regular_walk_empty : ∀ (cs : FsChildren) (p : List String),
    childrenHaveRegular cs = false →
    (walkChildren p cs).filter (fun e => isRegularNode e.2) = []
  | FsChildren.nil, p, _ => rfl
  | FsChildren.cons n node rest, p, h => by
    have hp : hasRegular node = false ∧ childrenHaveRegular rest = false := by
      simpa [childrenHaveRegular, Bool.or_eq_false_iff] using h
    rw [walkChildren, List.filter_append, regular_walk_empty node (p ++ [n]) hp.1,
      children_regular_walk_empty rest p hp.2]
    rfl
end

theorem teeTrace_countP_sink (chunks : List (List Nat)) :
    (teeTrace chunks).countP isSinkWrite = chunks.length := by
  induction chunks with
  | nil => rfl
  | cons c rest ih => simp [teeTrace, List.countP_cons, isSinkWrite, ih]

theorem teeTrace_countP_digest (chunks : List (List Nat)) :
    (teeTrace chunks).countP isDigestUpdate = chunks.length := by
  induction chunks with
  | nil => rfl
  | cons c rest ih => simp [teeTrace, List.countP_cons, isDigestUpdate, ih]

/-! ## Claim theorems -/

/-- C1 counterexample: the claim says `parseUri` errors whenever the
bucket or the path component is empty, but `"bucket/"` (empty path after
the slash) and `"/p"` (empty bucket before the slash) are both accepted
by the code. -/
theorem parseUri_accepts_empty_components :
    parseUri ("bucket/".toList) = Except.ok ("bucket".toList, []) ∧
    parseUri ("/p".toList) = Except.ok ([], "p".toList) := by
  exact ⟨rfl, rfl⟩

/-- C1 (amended): `parseUri`, after optionally stripping `gs://`, fails
if and only if the remaining URI contains no `/` separator at all; when
a `/` is present it splits at the first one, accepting empty bucket or
empty remainder components. -/
theorem parseUri_error_iff_no_slash (uri : List Char) :
    (∃ e, parseUri uri = Except.error e) ↔ '/' ∉ dropScheme uri := by
  by_cases h : '/' ∈ dropScheme uri
  · obtain ⟨a, b, hs⟩ := splitN2_with_slash _ h
    simp [parseUri, hs, h]
  · simp [parseUri, splitN2_no_slash _ h, h]

/-- C2 failing input: with the walk rooted at `/data` and the process
running in `/tmp`, the walker discovers `/data/a.txt` and hands
`uploadFile` the relative path `a.txt`; `os.Open("a.txt")` then resolves
against the working directory and opens `/tmp/a.txt`, not the discovered
file — the claim's "regardless of the process's current working
directory" fails.  Opening the right file needs `cwd = root`. -/
theorem uploadFile_open_depends_on_cwd :
    relKey ["data"] ["data", "a.txt"] = ⟨false, ["a.txt"]⟩ ∧
    openedFile ["tmp"] (relKey ["data"] ["data", "a.txt"]) = ⟨true, ["tmp", "a.txt"]⟩ ∧
    openedFile ["tmp"] (relKey ["data"] ["data", "a.txt"]) ≠ ⟨true, ["data", "a.txt"]⟩ ∧
    openedFile ["data"] (relKey ["data"] ["data", "a.txt"]) = ⟨true, ["data", "a.txt"]⟩ := by
  decide

/-- C3 failing input: a run in which every remote `Write` succeeds but
the remote writer's `Close` (the commit) fails.  `uploadFile` still
returns a successful `(path, digest)` result because the deferred
`gcsObj.Close()` error is discarded, and the manifest publication
likewise succeeds while the deferred `mfstObj.Close()` error is
discarded — an uncommitted object is counted as a successful upload,
contrary to the claim. -/
theorem commit_failure_not_fatal :
    uploadFile ⟨true, [[1]], true, false⟩ = Except.ok (digestString [[1]]) ∧
    remoteClose ⟨true, [[1]], true, false⟩ = Except.error UploadErr.remoteCommit ∧
    publishManifest [] ⟨true, false, true⟩ =
      Except.ok [(Sink.remote, serializeManifest []), (Sink.localFile, serializeManifest []),
        (Sink.stdout, serializeManifest [])] ∧
    mfstRemoteClose ⟨true, false, true⟩ = Except.error PubErr.remoteCommit := by
  exact ⟨rfl, rfl, rfl, rfl⟩

/-- C4: the bytes the tee writes to the remote sink equal the bytes read
from the local file, the bytes fed to the digest accumulator equal them
too, and the digest string `uploadFile` records is exactly
`"sha256:" + hex` of the SHA-256 of that transmitted byte sequence — the
hashed and transmitted bytes cannot diverge. -/
theorem tee_preserves_bytes_and_digest (chunks : List (List Nat)) :
    (teeCopy chunks).1 = chunks.flatten ∧
    (teeCopy chunks).2 = chunks.flatten ∧
    digestString chunks = sha256Tag ++ hexOfBytes (sha256Sum (teeCopy chunks).1) := by
  obtain ⟨h1, h2⟩ := teeCopy_eq_join chunks
  refine ⟨h1, h2, ?_⟩
  unfold digestString
  rw [h1, h2]

/-- C5: for a well-formed tree in which every upload task succeeds, and
for any order in which the channel delivers the task results, the final
manifest's keys are duplicate-free, a key is present exactly when it is
the relative path of a regular file discovered under the root (so
non-regular entries contribute nothing), and the manifest has exactly
one entry per regular file. -/
theorem manifest_key_set (R : List String) (t : FsNode)
    (dig : List String → List Char) (recv : List (FPath × List Char))
    (hwf : nodeWF t = true) (hrecv : recv.Perm (uploadResults R t dig)) :
    (mfstKeys (buildMfst recv)).Nodup ∧
    (∀ k, k ∈ mfstKeys (buildMfst recv) ↔
      ∃ p ∈ regularPaths R t, k = relKey R p) ∧
    (buildMfst recv).length = (regularPaths R t).length := by
  have hmemkeys : ∀ k, k ∈ mfstKeys (buildMfst recv) ↔
      k ∈ (regularPaths R t).map (relKey R) := by
    intro k
    rw [mem_buildMfst_keys]
    have hp : (recv.map Prod.fst).Perm ((uploadResults R t dig).map Prod.fst) :=
      hrecv.map _
    rw [hp.mem_iff]
    unfold uploadResults
    rw [List.map_map]
    rfl
  have hregnodup : (regularPaths R t).Nodup := regularPaths_nodup R t hwf
  have hkeysnodup := buildMfst_keys_nodup recv
  have hmapnodup : ((regularPaths R t).map (relKey R)).Nodup := by
    refine hregnodup.map_on ?_
    intro x hx y hy hxy
    obtain ⟨s₁, rfl⟩ := regularPaths_shape R t x hx
    obtain ⟨s₂, rfl⟩ := regularPaths_shape R t y hy
    rw [relKey_inj_under R s₁ s₂ hxy]
  refine ⟨hkeysnodup, ?_, ?_⟩
  · intro k
    rw [hmemkeys k]
    simp [List.mem_map, eq_comm]
  · have hfin : (mfstKeys (buildMfst recv)).toFinset =
        ((regularPaths R t).map (relKey R)).toFinset := by
      ext k
      simp only [List.mem_toFinset]
      exact hmemkeys k
    have h1 := List.toFinset_card_of_nodup hkeysnodup
    have h2 := List.toFinset_card_of_nodup hmapnodup
    have hlen : (mfstKeys (buildMfst recv)).length =
        ((regularPaths R t).map (relKey R)).length := by
      rw [← h1, ← h2, hfin]
    simpa [mfstKeys] using hlen

/-- C5 witness: the sample tree, with results delivered in reverse
order. -/
theorem manifest_key_set_witness :
    (mfstKeys (buildMfst sampleRecv)).Nodup ∧
    (∀ k, k ∈ mfstKeys (buildMfst sampleRecv) ↔
      ∃ p ∈ regularPaths ["r"] sampleTree, k = relKey ["r"] p) ∧
    (buildMfst sampleRecv).length = (regularPaths ["r"] sampleTree).length :=
  manifest_key_set ["r"] sampleTree sampleDig sampleRecv (by decide) (by decide)

/-- C8: for every directory root containing zero regular files anywhere
under it (its children may include subdirectories and special entries),
the run yields the empty manifest and still publishes it: when the two
fallible writes succeed, the serialized empty manifest is written to the
remote manifest object, to the local manifest file, and to standard
output, with no error. -/
theorem empty_dir_manifest_published (R : List String) (cs : FsChildren)
    (dig : List String → List Char) (env : PublishEnv)
    (hz : hasRegular (FsNode.dir cs) = false)
    (hr : env.remoteWriteOk = true) (hl : env.localWriteOk = true) :
    mainManifest R (FsNode.dir cs) dig = [] ∧
    publishManifest (mainManifest R (FsNode.dir cs) dig) env =
      Except.ok [(Sink.remote, serializeManifest []),
        (Sink.localFile, serializeManifest []),
        (Sink.stdout, serializeManifest [])] := by
  have hreg : regularPaths R (FsNode.dir cs) = [] := by
    unfold regularPaths
    rw [regular_walk_empty (FsNode.dir cs) R hz]
    rfl
  have hm : mainManifest R (FsNode.dir cs) dig = [] := by
    unfold mainManifest uploadResults
    rw [hreg]
    rfl
  refine ⟨hm, ?_⟩
  rw [hm]
  simp [publishManifest, hr, hl]

/-- C8 witness: root `/r` over a directory holding a subdirectory with a
special entry and another special entry — no regular files — with all
writes succeeding. -/
theorem empty_dir_manifest_published_witness :
    mainManifest ["r"] (FsNode.dir sampleNoRegular) (fun _ => []) = [] ∧
    publishManifest (mainManifest ["r"] (FsNode.dir sampleNoRegular) (fun _ => []))
        ⟨true, true, true⟩ =
      Except.ok [(Sink.remote, serializeManifest []),
        (Sink.localFile, serializeManifest []),
        (Sink.stdout, serializeManifest [])] :=
  empty_dir_manifest_published ["r"] sampleNoRegular (fun _ => []) ⟨true, true, true⟩
    (by decide) rfl rfl

/-- C6: every digest string a successful upload task produces is
`"sha256:"` followed by exactly 64 characters, each a lowercase
hexadecimal digit. -/
theorem digest_format (chunks : List (List Nat)) :
    ∃ hx, digestString chunks = sha256Tag ++ hx ∧ hx.length = 64 ∧
      ∀ c ∈ hx, c ∈ hexChars := by
  refine ⟨hexOfBytes (sha256Sum (teeCopy chunks).2), rfl, ?_, ?_⟩
  · rw [hexOfBytes_length, sha256Sum_length]
  · exact hexOfBytes_mem _ (sha256Sum_bytes_lt _)

/-- C7: when the resolved root is itself a regular file, the walk visits
only that file, `relPath` is the root path itself (the `absRoot == path`
branch), and the run's manifest has exactly one entry keyed by the
file's own (absolute) path. -/
theorem single_file_manifest (R : List String) (c : List Nat)
    (dig : List String → List Char) :
    mainManifest R (FsNode.file c) dig = [(⟨true, R⟩, dig R)] := by
  simp [mainManifest, uploadResults, regularPaths, walkNode, isRegularNode, relKey,
    buildMfst, mapInsert]

/-- C9 counterexample: for the single chunk `[1]`, the trace of
`io.Copy(h, io.TeeReader(f, gcsObj))` is read, sink write, return to the
caller, digest update — the digest update happens strictly after the
chunk is returned to the caller of the read (it is performed by the
caller, `io.Copy`), so "both occur ... before the bytes are returned"
is false. -/
theorem tee_digest_update_after_return :
    teeTrace [[1]] = [TeeEvent.readFile [1], TeeEvent.sinkWrite [1],
      TeeEvent.retToCaller [1], TeeEvent.digestUpdate [1]] ∧
    (teeTrace [[1]]).indexOf (TeeEvent.retToCaller [1]) <
      (teeTrace [[1]]).indexOf (TeeEvent.digestUpdate [1]) := by
  exact ⟨rfl, by decide⟩

/-- C9 (amended): per chunk, exactly one sink write and one digest
update occur, in that order; the sink write happens inside the tee read,
before the chunk is returned to the caller of the read, while the digest
update is performed by that caller (`io.Copy`) after the return and
before the next chunk is read.  Stated over the trace: the event counts
match the chunk count, and within the `i`-th chunk's four events the
order is read, sink write, return, digest update. -/
theorem tee_chunk_event_order (chunks : List (List Nat)) (i : Nat)
    (hi : i < chunks.length) :
    (teeTrace chunks).countP isSinkWrite = chunks.length ∧
    (teeTrace chunks).countP isDigestUpdate = chunks.length ∧
    (teeTrace chunks).getD (4 * i) (TeeEvent.readFile []) =
      TeeEvent.readFile (chunks.getD i []) ∧
    (teeTrace chunks).getD (4 * i + 1) (TeeEvent.readFile []) =
      TeeEvent.sinkWrite (chunks.getD i []) ∧
    (teeTrace chunks).getD (4 * i + 2) (TeeEvent.readFile []) =
      TeeEvent.retToCaller (chunks.getD i []) ∧
    (teeTrace chunks).getD (4 * i + 3) (TeeEvent.readFile []) =
      TeeEvent.digestUpdate (chunks.getD i []) := by
  refine ⟨teeTrace_countP_sink chunks, teeTrace_countP_digest chunks, ?_⟩
  induction chunks generalizing i with
  | nil => simp at hi
  | cons c rest ih =>
    cases i with
    | zero => exact ⟨rfl, rfl, rfl, rfl⟩
    | succ j =>
      have hj : j < rest.length := by simpa using hi
      exact ih j hj

/-- C9 amended-claim witness at the concrete chunk list `[[1], [2]]`,
second chunk. -/
theorem tee_chunk_event_order_witness :
    (teeTrace [[1], [2]]).countP isSinkWrite = 2 ∧
    (teeTrace [[1], [2]]).countP isDigestUpdate = 2 ∧
    (teeTrace [[1], [2]]).getD 4 (TeeEvent.readFile []) = TeeEvent.readFile [2] ∧
    (teeTrace [[1], [2]]).getD 5 (TeeEvent.readFile []) = TeeEvent.sinkWrite [2] ∧
    (teeTrace [[1], [2]]).getD 6 (TeeEvent.readFile []) = TeeEvent.retToCaller [2] ∧
    (teeTrace [[1], [2]]).getD 7 (TeeEvent.readFile []) = TeeEvent.digestUpdate [2] :=
  tee_chunk_event_order [[1], [2]] 1 (by decide)

/-- C10: the walk callback's result never depends on its incoming
traversal-error argument (the body never reads it), it faults (nil
`FileInfo` dereference in `fi.Mode()`, modelled as `none`) whenever
`filepath.Walk` passes a nil `FileInfo` — in particular it does not
return the traversal error — and it is total whenever the `FileInfo` is
non-nil. -/
theorem walk_callback_nil_fileinfo (absRoot path : List String) (e : List Char) :
    (∀ (fi : Option FileInfo) (e₂ : Option (List Char)),
        walkCallback absRoot path fi (some e) = walkCallback absRoot path fi e₂) ∧
    walkCallback absRoot path none (some e) = none ∧
    walkCallback absRoot path none (some e) ≠ some (Except.error e) ∧
    ∀ info : FileInfo, (walkCallback absRoot path (some info) (some e)).isSome = true := by
  refine ⟨fun fi e₂ => rfl, rfl, by simp [walkCallback], fun info => ?_⟩
  cases hb : info.regular <;> simp [walkCallback, hb]

end GcsUpload
